import Mathlib

set_option maxRecDepth 100000

/-!
Verification of the QR-code batch pipeline: a shallow embedding of
`src/utils/file_handler.py` (read_file, validate_filename_parts,
prepare_dataframe) and `src/utils/qr_generator.py` (generate_qr_codes,
create_zip_file), together with theorems settling the frozen claims.

Text is embedded as `List Char` (Python `str`); a dataframe is an ordered
list of rows, each row an association list from column name to cell value;
a pandas missing value (NaN) is `Cell.missing`.  Python code that can raise
an uncaught exception is embedded as an `Option`-valued function returning
`none` in exactly those situations.  External primitives (the QR renderer,
the pandas content hash) are abstracted: the renderer becomes an oracle
argument, the hash a fixed deterministic content digest.
-/

namespace QrSpec

abbrev Chars := List Char

abbrev Bytes := List Nat

/-- Python string literal to character list. -/
def s2c (s : String) : Chars := s.toList

/-- A scalar cell of a dataframe: either a pandas missing value (NaN) or a
stringified scalar.  `str(float('nan'))` is `"nan"`, see `cellToStr`. -/
inductive Cell where
  | missing : Cell
  | str (s : Chars) : Cell
deriving DecidableEq, Repr

/-- One dataframe row: association list from column name to cell. -/
abbrev Row := List (String × Cell)

/-- `row[col]` lookup; `none` models a pandas `KeyError`. -/
def getCell : Row → String → Option Cell
  | [], _ => none
  | (k, v) :: rest, c => if k = c then some v else getCell rest c

/-- Python `str(value)` on a cell. -/
def cellToStr : Cell → Chars
  | Cell.missing => s2c "nan"
  | Cell.str s => s

/-- Python `s.strip()` (both-ends whitespace trim). -/
def trimL (s : Chars) : Chars :=
  (((s.dropWhile Char.isWhitespace).reverse).dropWhile Char.isWhitespace).reverse

/-- Python `s.lower()`. -/
def toLowerL (s : Chars) : Chars := s.map Char.toLower

/-- Python `pat in hay` substring membership test. -/
def substrB (pat : Chars) : Chars → Bool
  | [] => pat.isEmpty
  | c :: rest => pat.isPrefixOf (c :: rest) || substrB pat rest

/-- Fuel-driven body of Python `s.replace(pat, rep)`: leftmost,
non-overlapping, replaces every occurrence.  Fuel `s.length` suffices. -/
def replaceFuel (pat rep : Chars) : Nat → Chars → Chars
  | 0, s => s
  | _ + 1, [] => []
  | fuel + 1, c :: rest =>
    if !pat.isEmpty && pat.isPrefixOf (c :: rest) then
      rep ++ replaceFuel pat rep fuel (List.drop (pat.length - 1) rest)
    else
      c :: replaceFuel pat rep fuel rest

/-- Python `s.replace(pat, rep)` (for non-empty `pat`). -/
def replaceL (pat rep s : Chars) : Chars := replaceFuel pat rep s.length s

/-- Decimal digit to its character. -/
def digitChar : Nat → Char
  | 0 => '0' | 1 => '1' | 2 => '2' | 3 => '3' | 4 => '4'
  | 5 => '5' | 6 => '6' | 7 => '7' | 8 => '8' | _ => '9'

/-- Fuel-driven decimal printer body; fuel `n + 1` suffices. -/
def natCharsFuel : Nat → Nat → Chars
  | 0, _ => []
  | fuel + 1, n =>
    if n < 10 then [digitChar n]
    else natCharsFuel fuel (n / 10) ++ [digitChar (n % 10)]

/-- Python `str(n)` for a natural number. -/
def natChars (n : Nat) : Chars := natCharsFuel (n + 1) n

/-- The filesystem-reserved characters, exactly the Python literal
`r'<>:"/\|?*'` of `file_handler.py`. -/
def invalid_chars : Chars := s2c "<>:\"/\\|?*"

/-- The sanitization loop of `file_handler.py`: each reserved character is
replaced by `'-'`, one `str.replace` pass per character. -/
def sanitizeL (f : Chars) : Chars :=
  invalid_chars.foldl (fun acc c => replaceL [c] (s2c "-") acc) f

def hashMod : Nat := 18446744073709551616

/-- Modelled from the spec: stands in for the external pandas primitive
`pd.util.hash_pandas_object(row).sum()` used by `prepare_dataframe` for
duplicate-filename suffixes (the pandas library is outside `src/`).  Per the
spec it is a deterministic digest of the row's own content (values and
index), summed per element modulo 2^64; we use a fixed polynomial digest
with the same signature and determinism properties. -/
def charsHash (s : Chars) : Nat :=
  s.foldl (fun a c => (a * 131 + c.toNat + 11) % hashMod) 7

/-- Modelled from the spec: per-cell component of the content digest. -/
def cellHash : Cell → Nat
  | Cell.missing => 9973
  | Cell.str s => charsHash s

/-- Modelled from the spec: digest of a whole row (column names and cell
values), summed elementwise modulo 2^64 like
`hash_pandas_object(row).sum()`. -/
def rowHash (r : Row) : Nat :=
  r.foldl (fun a p => (a + charsHash (s2c p.1) * 2654435761 + cellHash p.2) % hashMod) 0

/-- Sequence a list of options (`none` models a raised exception). -/
def seqOpt : List (Option α) → Option (List α)
  | [] => some []
  | o :: rest => o.bind (fun a => (seqOpt rest).map (fun l => a :: l))

/-- Effectful row iteration: `none` as soon as one element fails. -/
def mapMO (f : α → Option β) (l : List α) : Option (List β) := seqOpt (l.map f)

/-! ## Filename Deriver: `prepare_dataframe` (file_handler.py lines 118-202) -/

/-- `safe_str_value` of `prepare_dataframe`: NaN becomes `"missing"`, a
value that stringifies to blank becomes `"empty"`. -/
def safe_str_value : Cell → Chars
  | Cell.missing => s2c "missing"
  | Cell.str s => if (trimL s).isEmpty then s2c "empty" else s

/-- A derived record: the raw URL cell paired with the generated filename
(the two columns `prepare_dataframe` keeps). -/
structure PreparedRow where
  url : Cell
  filename : Chars
deriving DecidableEq, Repr

/-- Tag a row with its URL-column cell; `none` models the `KeyError` raised
by `dropna(subset=[url_column])` when the column is absent. -/
def urlTagged (u : String) (r : Row) : Option (Row × Cell) :=
  (getCell r u).map (fun c => (r, c))

/-- The two row filters of `prepare_dataframe`: drop NaN URLs, then drop
URLs that stringify to blank. -/
def surviveB (p : Row × Cell) : Bool :=
  !(p.2 = Cell.missing) && !(trimL (cellToStr p.2)).isEmpty

/-- Candidate filename of one surviving row: safe component values joined
by the separator, `.png` appended, reserved characters sanitized, then
`'nan'`→`'missing'` substring replacement (lines 161-172). -/
def candidateName (cols : List String) (sep : Chars) (r : Row) : Option Chars :=
  (mapMO (fun c => getCell r c) cols).map (fun vs =>
    replaceL (s2c "nan") (s2c "missing")
      (sanitizeL (List.intercalate sep (vs.map safe_str_value) ++ s2c ".png")))

/-- Tag a surviving row with its candidate filename; `none` models the
`KeyError` when a filename column is absent. -/
def nameRow (cols : List String) (sep : Chars) (p : Row × Cell) :
    Option (Row × Cell × Chars) :=
  (candidateName cols sep p.1).map (fun n => (p.1, p.2, n))

/-- Duplicate disambiguation of lines 188-193: replace `.png` by
`_<digest>.png`, the digest taken over the row extended with its
`generated_filename` column (the row's state when hashed). -/
def dupSuffix (r : Row) (n : Chars) : Chars :=
  replaceL (s2c ".png")
    (s2c "_" ++ natChars (rowHash (r ++ [("generated_filename", Cell.str n)])) ++ s2c ".png") n

/-- Lines 180-194: filenames occurring more than once in the whole batch
get the content-derived suffix, the rest are kept as they are. -/
def finalizeRows (withNames : List (Row × Cell × Chars)) : List PreparedRow :=
  withNames.map (fun t =>
    if 1 < (withNames.map (fun t' => t'.2.2)).count t.2.2 then
      { url := t.2.1, filename := dupSuffix t.1 t.2.2 }
    else
      { url := t.2.1, filename := t.2.2 })

/-- `prepare_dataframe(df, url_column, filename_columns, separator)`:
filter rows with missing/blank URLs, build sanitized candidate filenames,
then give every filename that occurs more than once a content-derived
suffix.  `none` models an uncaught `KeyError`. -/
def prepare_dataframe (df : List Row) (u : String) (cols : List String)
    (sep : Chars) : Option (List PreparedRow) :=
  (mapMO (urlTagged u) df).bind (fun rows =>
    (mapMO (nameRow cols sep) (rows.filter surviveB)).map finalizeRows)

/-- A row the Deriver drops: URL column missing from the row, or its value
is NaN or blank after stringification and trimming. -/
def droppedB (u : String) (r : Row) : Bool :=
  match getCell r u with
  | none => true
  | some c => (c = Cell.missing) || (trimL (cellToStr c)).isEmpty

/-! ## Validation: `validate_filename_parts` (file_handler.py lines 81-115) -/

/-- One sampled candidate filename of `validate_filename_parts`: columns
absent from the row are silently skipped, each value is stringified and
sanitized, then joined and suffixed `.png` (note: the separator is not
sanitized here). -/
def sample_candidate (sep : Chars) (cols : List String) (r : Row) : Chars :=
  List.intercalate sep
    (cols.filterMap (fun c => (getCell r c).map (fun v => sanitizeL (cellToStr v))))
    ++ s2c ".png"

/-- The sampling loop of lines 101-113: fail at the first sampled row whose
candidate filename exceeds 255 characters. -/
def validateLoop (sep : Chars) (cols : List String) : List Row → Bool × Chars
  | [] => (true, [])
  | r :: rest =>
    let fname := sample_candidate sep cols r
    if 255 < fname.length then
      (false, s2c "Generated filename exceeds 255 characters: " ++ fname.take 50)
    else
      validateLoop sep cols rest

/-- `validate_filename_parts(df, selected_columns, separator)`: rejects a
separator occurring as a substring of the reserved-character string (the
Python test `separator in invalid_chars`), then length-checks the
candidate filenames of the first `min(5, len(df))` rows. -/
def validate_filename_parts (df : List Row) (cols : List String) (sep : Chars) :
    Bool × Chars :=
  if substrB sep invalid_chars then
    (false, s2c "Separator contains invalid filename character: " ++ sep)
  else
    validateLoop sep cols (df.take 5)

/-! ## Batch Orchestrator: `generate_qr_codes` (qr_generator.py lines 45-186) -/

/-- The problematic filename tokens of qr_generator.py line 97. -/
def problematic_patterns : List Chars :=
  [s2c "missing_missing", s2c "nan_nan", s2c "item_item", s2c "empty_empty"]

/-- Line 136: `any(pattern in filename.lower() for pattern in problematic_patterns)`. -/
def hasProblematicPattern (f : Chars) : Bool :=
  problematic_patterns.any (fun p => substrB p (toLowerL f))

/-- Line 141: `'nan' in filename.lower()`. -/
def hasNan (f : Chars) : Bool := substrB (s2c "nan") (toLowerL f)

/-- The body of the per-row loop (lines 124-176) for one surviving row:
`none` when the row is skipped — problematic filename tokens, `nan` in the
filename, blank URL, a `KeyError` on the filename column at line 127
(inside the `try`, hence caught and unreachable once the line 99 column
access has succeeded), or a rendering failure (any exception, also
caught).  The renderer is the external QR primitive, an oracle `render`. -/
def genRowStep (render : Chars → Option Bytes) (fc : String) (p : Row × Cell) :
    Option (Chars × Bytes) :=
  match getCell p.1 fc with
  | none => none
  | some cf =>
    let url := cellToStr p.2
    let filename := cellToStr cf
    if hasProblematicPattern filename then none
    else if hasNan filename then none
    else if (trimL url).isEmpty then none
    else (render url).map (fun bs => (filename, bs))

/-- `generate_qr_codes(df, url_column, filename_column)`: re-filter rows
with missing/blank URLs (lines 82-86, raising `KeyError` when the URL
column is absent — modelled by `none`); then the pre-loop pattern scan at
line 99 reads `valid_df[filename_column]` outside the per-row `try`, an
uncaught `KeyError` when the filename column is absent — modelled by the
second `mapMO`, whose cell values are only logged and otherwise unused
(the column set of `valid_df` equals that of `df`, so the check ranges
over all rows); finally run the per-row loop, every per-row failure
isolated. -/
def generate_qr_codes (render : Chars → Option Bytes) (df : List Row)
    (u fc : String) : Option (List (Chars × Bytes)) :=
  (mapMO (urlTagged u) df).bind (fun rows =>
    (mapMO (fun p => getCell p.1 fc) rows).map (fun _ =>
      (rows.filter surviveB).filterMap (genRowStep render fc)))

/-- The whole per-row attempt as a function of the original row: URL
lookup, the two URL filters, then the loop body.  `generate_qr_codes`
equals `df.filterMap` of this (theorem below): rows fail independently, in
original order. -/
def rowAttempt (render : Chars → Option Bytes) (u fc : String) (r : Row) :
    Option (Chars × Bytes) :=
  match getCell r u with
  | none => none
  | some cu => if surviveB (r, cu) then genRowStep render fc (r, cu) else none

/-! ## Archive Packager: `create_zip_file` (qr_generator.py lines 189-252) -/

/-- `filename in seen_filenames` / `seen_filenames[filename]` of the Python
dict, as an association-list lookup. -/
def lookupSeen : List (Chars × Nat) → Chars → Option Nat
  | [], _ => none
  | (g, n) :: rest, f => if g = f then some n else lookupSeen rest f

/-- `seen_filenames[filename] += 1`. -/
def bumpSeen : List (Chars × Nat) → Chars → List (Chars × Nat)
  | [], _ => []
  | (g, n) :: rest, f =>
    if g = f then (g, n + 1) :: rest else (g, n) :: bumpSeen rest f

/-- Python `filename.rsplit('.', 1)` restricted to the two-part unpacking
of line 229: `some (base, ext)` splits at the last dot, `none` models the
`ValueError` raised (uncaught) when the filename has no dot. -/
def rsplit1 : Chars → Option (Chars × Chars)
  | [] => none
  | c :: rest =>
    match rsplit1 rest with
    | some (b, e) => some (c :: b, e)
    | none => if c = '.' then some ([], rest) else none

/-- Line 230: `f"{base_name}_{seen_filenames[filename]}.{ext}"`. -/
def renameName (b : Chars) (k : Nat) (e : Chars) : Chars :=
  b ++ '_' :: natChars k ++ '.' :: e

/-- One iteration of the packaging loop (lines 213-242), carrying the seen
map and entries stored so far.  Skipped entries leave the state unchanged;
a duplicate whose name has no extension aborts with `none`. -/
def zipStep (st : List (Chars × Nat) × List (Chars × Bytes)) (q : Chars × Bytes) :
    Option (List (Chars × Nat) × List (Chars × Bytes)) :=
  if hasProblematicPattern q.1 then some st
  else if hasNan q.1 then some st
  else
    match lookupSeen st.1 q.1 with
    | some n =>
      match rsplit1 q.1 with
      | none => none
      | some (b, e) => some (bumpSeen st.1 q.1, st.2 ++ [(renameName b (n + 1) e, q.2)])
    | none => some (st.1 ++ [(q.1, 1)], st.2 ++ [(q.1, q.2)])

/-- The packaging loop over all entries. -/
def zipLoop (st : List (Chars × Nat) × List (Chars × Bytes)) :
    List (Chars × Bytes) → Option (List (Chars × Nat) × List (Chars × Bytes))
  | [] => some st
  | q :: rest =>
    match zipStep st q with
    | none => none
    | some st' => zipLoop st' rest

/-- `create_zip_file(qr_codes)`: the archive is modelled as its ordered
entry list (the zip container itself is an external primitive; duplicate
stored names are accepted by `zipfile.writestr`). -/
def create_zip_file (qr_codes : List (Chars × Bytes)) :
    Option (List (Chars × Bytes)) :=
  (zipLoop ([], []) qr_codes).map (fun st => st.2)

/-- Follows the spec's words for the Packager rename rule: the `k`-th kept
occurrence of a filename (`k` counted over the previously kept original
names) is stored unchanged when `k = 1` and as `base_k.ext` otherwise.
Stated as a second definition to compare with `create_zip_file`. -/
def zipSpecGo (prev : List Chars) : List (Chars × Bytes) → Option (List (Chars × Bytes))
  | [] => some []
  | (f, bs) :: rest =>
    if hasProblematicPattern f then zipSpecGo prev rest
    else if hasNan f then zipSpecGo prev rest
    else
      if prev.count f = 0 then
        (zipSpecGo (prev ++ [f]) rest).map (fun l => (f, bs) :: l)
      else
        match rsplit1 f with
        | none => none
        | some (b, e) =>
          (zipSpecGo (prev ++ [f]) rest).map (fun l =>
            (renameName b (prev.count f + 1) e, bs) :: l)

/-- Count-based rename behaviour, from the spec's words. -/
def zipSpec (qs : List (Chars × Bytes)) : Option (List (Chars × Bytes)) :=
  zipSpecGo [] qs

/-! ## Tabular Loader: `read_file` (file_handler.py lines 8-39) -/

/-- `uploaded_file.name.split('.')[-1]`: the segment after the last dot
(the whole name when it has no dot). -/
def lastSegAux : Chars → Chars → Chars
  | [], acc => acc.reverse
  | c :: rest, acc => if c = '.' then lastSegAux rest [] else lastSegAux rest (c :: acc)

/-- The lowercased declared extension of an uploaded file name. -/
def extOf (name : Chars) : Chars := toLowerL (lastSegAux name [])

/-- `read_file(uploaded_file)`: the external spreadsheet/CSV parsers are
oracle arguments (`excelSheets` the parsed workbook, `csvRows` the parsed
CSV).  Spreadsheet extensions keep only non-empty sheets; a CSV becomes a
single `Sheet1` entry unconditionally; any other extension raises
`ValueError`, modelled by `none`. -/
def read_file (name : Chars) (excelSheets : List (Chars × List Row))
    (csvRows : List Row) : Option (List (Chars × List Row)) :=
  let ext := extOf name
  if ext = s2c "xls" ∨ ext = s2c "xlsx" ∨ ext = s2c "xlsm" then
    some (excelSheets.filter (fun p => !p.2.isEmpty))
  else if ext = s2c "csv" then
    some [(s2c "Sheet1", csvRows)]
  else
    none

/-- The five tokens whose (case-insensitive) presence in a filename makes
the Orchestrator and the Packager skip the entry: the four problematic
patterns plus the literal substring `nan`. -/
def cleanTokens : List Chars :=
  [s2c "missing_missing", s2c "nan_nan", s2c "item_item", s2c "empty_empty", s2c "nan"]

/-- A filename free (case-insensitively) of all problematic tokens. -/
def cleanName (x : Chars) : Prop := ∀ t ∈ cleanTokens, ¬ t <:+: toLowerL x

/-! ## Concrete instances used by counterexamples and witnesses -/

def rowAcmeA : Row :=
  [("name", Cell.str (s2c "Acme")), ("link", Cell.str (s2c "https://acme.example/a"))]

def rowAcmeB : Row :=
  [("name", Cell.str (s2c "Acme")), ("link", Cell.str (s2c "https://acme.example/b"))]

def acmePairOut : List PreparedRow :=
  [{ url := Cell.str (s2c "https://acme.example/a"),
     filename := s2c "Acme_2366136575352220176.png" },
   { url := Cell.str (s2c "https://acme.example/b"),
     filename := s2c "Acme_2366136575352220177.png" }]

def c3out : List PreparedRow :=
  [{ url := Cell.str (s2c "https://acme.example/a"),
     filename := s2c "Acme_2366136575352220176.png" },
   { url := Cell.str (s2c "https://acme.example/a"),
     filename := s2c "Acme_2366136575352220176.png" }]

def c4df : List Row :=
  [[("name", Cell.str (s2c "Acme")), ("link", Cell.str (s2c "https://x"))],
   [("name", Cell.str (s2c "B")), ("link", Cell.missing)],
   [("name", Cell.str (s2c "C")), ("link", Cell.str (s2c "   "))]]

def c4out : List PreparedRow :=
  [{ url := Cell.str (s2c "https://x"), filename := s2c "Acme.png" }]

def c6df : List Row := [[("v", Cell.str (s2c "x"))]]

def c7df256 : List Row := [[("v", Cell.str (List.replicate 252 'a'))]]

def c7df255 : List Row := [[("v", Cell.str (List.replicate 251 'a'))]]

def c1df : List Row :=
  [[("link", Cell.str (s2c "https://x")), ("generated_filename", Cell.str (s2c "ok.png"))],
   [("link", Cell.missing), ("generated_filename", Cell.str (s2c "b.png"))]]

def c1render : Chars → Option Bytes := fun _ => some [7]

def c9sheets : List (Chars × List Row) := [(s2c "S", [rowAcmeA]), (s2c "E", [])]

/-! # Theorems

Helper lemmas first, then one theorem per claim (with its witness or
counterexample where required). -/

theorem mapMO_nil (f : α → Option β) : mapMO f [] = some [] := rfl

theorem mapMO_cons (f : α → Option β) (a : α) (l : List α) :
    mapMO f (a :: l) = (f a).bind (fun b => (mapMO f l).map (fun bs => b :: bs)) := rfl

theorem mapMO_cons_some {f : α → Option β} {a : α} {l : List α} {l' : List β}
    (h : mapMO f (a :: l) = some l') :
    ∃ b bs, f a = some b ∧ mapMO f l = some bs ∧ l' = b :: bs := by
  rw [mapMO_cons] at h
  cases hfa : f a with
  | none => rw [hfa] at h; cases h
  | some b =>
    rw [hfa] at h
    cases hm : mapMO f l with
    | none => rw [hm] at h; cases h
    | some bs =>
      rw [hm] at h
      exact ⟨b, bs, rfl, rfl, (Option.some_inj.mp h).symm⟩

theorem mapMO_some_length {f : α → Option β} :
    ∀ {l : List α} {l' : List β}, mapMO f l = some l' → l'.length = l.length := by
  intro l
  induction l with
  | nil => intro l' h; cases h; rfl
  | cons a t ih =>
    intro l' h
    obtain ⟨b, bs, _, hm, rfl⟩ := mapMO_cons_some h
    simp [ih hm]

theorem mapMO_append (f : α → Option β) (l₁ l₂ : List α) :
    mapMO f (l₁ ++ l₂) =
      (mapMO f l₁).bind (fun a => (mapMO f l₂).map (fun b => a ++ b)) := by
  induction l₁ with
  | nil => simp [mapMO_nil]
  | cons a t ih =>
    rw [List.cons_append, mapMO_cons, mapMO_cons, ih]
    cases f a <;> cases mapMO f t <;> cases mapMO f l₂ <;> rfl

theorem mapMO_isSome_of_forall {f : α → Option β} :
    ∀ {l : List α}, (∀ a ∈ l, (f a).isSome) → ∃ r, mapMO f l = some r := by
  intro l
  induction l with
  | nil => exact fun _ => ⟨[], rfl⟩
  | cons a t ih =>
    intro h
    obtain ⟨b, hb⟩ := Option.isSome_iff_exists.mp (h a (by simp))
    obtain ⟨bs, hbs⟩ := ih (fun x hx => h x (by simp [hx]))
    exact ⟨b :: bs, by rw [mapMO_cons, hb, hbs]; rfl⟩

theorem length_filter_split (p : α → Bool) (l : List α) :
    (l.filter p).length + (l.filter (fun a => !p a)).length = l.length := by
  induction l with
  | nil => rfl
  | cons a t ih => by_cases h : p a <;> simp [List.filter_cons, h, ← ih] <;> omega

theorem filter_not_survive_length {u : String} :
    ∀ {df : List Row} {rows : List (Row × Cell)},
      mapMO (urlTagged u) df = some rows →
      (rows.filter (fun p => !surviveB p)).length = (df.filter (droppedB u)).length := by
  intro df
  induction df with
  | nil => intro rows h; cases h; rfl
  | cons r t ih =>
    intro rows h
    obtain ⟨b, bs, hfa, hm, rfl⟩ := mapMO_cons_some h
    cases hg : getCell r u with
    | none => simp [urlTagged, hg] at hfa
    | some c =>
      simp only [urlTagged, hg, Option.map_some'] at hfa
      obtain rfl : b = (r, c) := (Option.some_inj.mp hfa).symm
      have hd : droppedB u r = !surviveB (r, c) := by
        simp [droppedB, hg, surviveB, Bool.not_and, Bool.not_not]
      by_cases hs : surviveB (r, c)
      · simp [List.filter_cons, hs, hd, ih hm]
      · simp [List.filter_cons, hs, hd, ih hm]

/-- C4: the Deriver drops exactly the rows whose URL value is missing or
blank: output length plus dropped-row count equals input length. -/
theorem c4_row_accounting (df : List Row) (u : String) (cols : List String)
    (sep : Chars) (out : List PreparedRow)
    (h : prepare_dataframe df u cols sep = some out) :
    out.length + (df.filter (droppedB u)).length = df.length := by
  unfold prepare_dataframe at h
  cases h1 : mapMO (urlTagged u) df with
  | none => rw [h1] at h; cases h
  | some rows =>
    rw [h1, Option.some_bind] at h
    cases h2 : mapMO (nameRow cols sep) (rows.filter surviveB) with
    | none => rw [h2] at h; cases h
    | some withNames =>
      rw [h2, Option.map_some'] at h
      have hout : out = finalizeRows withNames := (Option.some_inj.mp h).symm
      have hlen : out.length = withNames.length := by
        rw [hout]; simp [finalizeRows]
      have h3 := mapMO_some_length h2
      have h4 := length_filter_split surviveB rows
      have h5 := filter_not_survive_length h1
      have h6 := mapMO_some_length h1
      omega

/-- C4 witness at a concrete three-row set (one valid, one NaN URL, one
blank URL). -/
theorem c4_row_accounting_witness :
    c4out.length + (c4df.filter (droppedB "link")).length = c4df.length :=
  c4_row_accounting c4df "link" ["name"] (s2c "_") c4out (by decide)

theorem append_self_take_half (l : List α) :
    l ++ l = (l ++ l).take ((l ++ l).length / 2) ++ (l ++ l).take ((l ++ l).length / 2) := by
  have hl : (l ++ l).length / 2 = l.length := by
    simp only [List.length_append]
    omega
  rw [hl, List.take_left]

/-- C3: the Deriver is a pure deterministic function of its input; a
duplicated input produces literally duplicated output (each duplicated
row's disambiguation suffix depends only on that row's own content, not on
a run-order counter, so both copies get the same filename). -/
theorem c3_deterministic (df : List Row) (u : String) (cols : List String)
    (sep : Chars) :
    prepare_dataframe df u cols sep = prepare_dataframe df u cols sep ∧
    (∀ out, prepare_dataframe (df ++ df) u cols sep = some out →
      out = out.take (out.length / 2) ++ out.take (out.length / 2)) := by
  refine ⟨rfl, ?_⟩
  intro out h
  unfold prepare_dataframe at h
  rw [mapMO_append] at h
  cases h1 : mapMO (urlTagged u) df with
  | none => rw [h1, Option.none_bind, Option.none_bind] at h; cases h
  | some R =>
    rw [h1, Option.some_bind, Option.map_some', Option.some_bind] at h
    rw [List.filter_append, mapMO_append] at h
    cases h2 : mapMO (nameRow cols sep) (R.filter surviveB) with
    | none => rw [h2, Option.none_bind, Option.map_none'] at h; cases h
    | some W =>
      rw [h2, Option.some_bind, Option.map_some', Option.map_some'] at h
      have hout : out = finalizeRows (W ++ W) := (Option.some_inj.mp h).symm
      have hsplit : finalizeRows (W ++ W) =
          (W.map (fun t =>
            if 1 < ((W ++ W).map (fun t' => t'.2.2)).count t.2.2 then
              { url := t.2.1, filename := dupSuffix t.1 t.2.2 }
            else
              { url := t.2.1, filename := t.2.2 })) ++
          (W.map (fun t =>
            if 1 < ((W ++ W).map (fun t' => t'.2.2)).count t.2.2 then
              { url := t.2.1, filename := dupSuffix t.1 t.2.2 }
            else
              { url := t.2.1, filename := t.2.2 })) := by
        unfold finalizeRows
        rw [List.map_append]
      rw [hout, hsplit]
      exact append_self_take_half _

/-- C3 witness: a one-row set duplicated; both copies of the duplicated
row receive the same content-derived suffixed filename. -/
theorem c3_deterministic_witness :
    c3out = c3out.take (c3out.length / 2) ++ c3out.take (c3out.length / 2) :=
  (c3_deterministic [rowAcmeA] "link" ["name"] (s2c "_")).2 c3out (by decide)

/-- C10: the `'nan'`→`'missing'` replacement applies to every occurrence
anywhere in the joined filename, including inside legitimate values
(`Banana` becomes `Bamissinga.png`, a double occurrence `nannan` becomes
`missingmissing.png`), and is case-sensitive (`BaNANa` is untouched). -/
theorem c10_nan_replacement :
    prepare_dataframe
        [[("name", Cell.str (s2c "Banana")), ("link", Cell.str (s2c "https://x"))]]
        "link" ["name"] (s2c "_") =
      some [{ url := Cell.str (s2c "https://x"), filename := s2c "Bamissinga.png" }] ∧
    prepare_dataframe
        [[("name", Cell.str (s2c "nannan")), ("link", Cell.str (s2c "https://x"))]]
        "link" ["name"] (s2c "_") =
      some [{ url := Cell.str (s2c "https://x"), filename := s2c "missingmissing.png" }] ∧
    prepare_dataframe
        [[("name", Cell.str (s2c "BaNANa")), ("link", Cell.str (s2c "https://x"))]]
        "link" ["name"] (s2c "_") =
      some [{ url := Cell.str (s2c "https://x"), filename := s2c "BaNANa.png" }] := by
  refine ⟨by decide, by decide, by decide⟩

/-- C2 counterexample: on the two-row Acme scenario, no output filename
equals `Acme.png` — in particular the first row does not keep `Acme.png`,
contradicting the claim. -/
theorem c2_first_row_not_kept_cex :
    (prepare_dataframe [rowAcmeA, rowAcmeB] "link" ["name"] (s2c "_")).map
        (fun l => (l.map PreparedRow.filename).contains (s2c "Acme.png")) =
      some false := by
  decide

/-- C2 amended: the Deriver gives BOTH duplicate rows (not only the
second) a deterministic content-derived suffix before the `.png`
extension; the two resulting filenames are distinct and of the shape
`Acme_<digest>.png`. -/
theorem c2_duplicate_suffix_amended :
    prepare_dataframe [rowAcmeA, rowAcmeB] "link" ["name"] (s2c "_") =
      some acmePairOut ∧
    (s2c "Acme_2366136575352220176.png") ≠ (s2c "Acme_2366136575352220177.png") ∧
    (s2c "Acme_").isPrefixOf (s2c "Acme_2366136575352220176.png") = true ∧
    (s2c "Acme_").isPrefixOf (s2c "Acme_2366136575352220177.png") = true ∧
    (s2c ".png").isSuffixOf (s2c "Acme_2366136575352220176.png") = true ∧
    (s2c ".png").isSuffixOf (s2c "Acme_2366136575352220177.png") = true := by
  refine ⟨by decide, by decide, by decide, by decide, by decide, by decide⟩

/-- C6 counterexample: the separator `"a|"` contains the reserved
character `'|'`, yet `validate_filename_parts` accepts it (the Python test
`separator in invalid_chars` is a substring test on the reserved-character
string, and `"a|"` is not a substring of it). -/
theorem c6_substring_check_cex :
    ('|' ∈ s2c "a|") ∧
    (validate_filename_parts c6df ["v"] (s2c "a|")).1 = true := by
  refine ⟨by decide, by decide⟩

/-- C6 amended: validation fails whenever the separator occurs as a
contiguous substring of the reserved-character string `<>:"/\|?*` (so
every single reserved character, `"|"` in particular, is rejected); a
multi-character separator containing a reserved character is rejected only
in that case. -/
theorem c6_separator_check_amended (df : List Row) (cols : List String)
    (sep : Chars) (h : substrB sep invalid_chars = true) :
    (validate_filename_parts df cols sep).1 = false := by
  simp [validate_filename_parts, h]

/-- C6 witness: the one-character separator `"|"` is rejected. -/
theorem c6_separator_check_amended_witness :
    (validate_filename_parts [] [] (s2c "|")).1 = false :=
  c6_separator_check_amended [] [] (s2c "|") (by decide)

theorem validateLoop_ok (sep : Chars) (cols : List String) :
    ∀ rows : List Row,
      rows.all (fun r => (sample_candidate sep cols r).length ≤ 255) = true →
      validateLoop sep cols rows = (true, []) := by
  intro rows
  induction rows with
  | nil => intro _; rfl
  | cons r rest ih =>
    intro h
    rw [List.all_cons, Bool.and_eq_true] at h
    have hle : ¬ 255 < (sample_candidate sep cols r).length := by
      have := of_decide_eq_true h.1
      omega
    simp [validateLoop, hle, ih h.2]

theorem validateLoop_fail (sep : Chars) (cols : List String) :
    ∀ rows : List Row,
      rows.any (fun r => (sample_candidate sep cols r).length = 256) = true →
      (validateLoop sep cols rows).1 = false := by
  intro rows
  induction rows with
  | nil => intro h; cases h
  | cons r rest ih =>
    intro h
    rw [List.any_cons, Bool.or_eq_true] at h
    by_cases hlt : 255 < (sample_candidate sep cols r).length
    · simp [validateLoop, hlt]
    · have htail : rest.any (fun r => (sample_candidate sep cols r).length = 256) = true := by
        cases h with
        | inl h1 =>
          have := of_decide_eq_true h1
          omega
        | inr h2 => exact h2
      simp [validateLoop, hlt, ih htail]

/-- C7: over the sampled first `min(5, len)` rows, a candidate filename of
exactly 256 characters forces rejection; and when the separator check
passes and all sampled candidates are at most 255 characters long
(255 exactly included), validation succeeds. -/
theorem c7_length_check (df : List Row) (cols : List String) (sep : Chars) :
    ((df.take 5).any (fun r => (sample_candidate sep cols r).length = 256) = true →
       (validate_filename_parts df cols sep).1 = false) ∧
    (substrB sep invalid_chars = false →
       (df.take 5).all (fun r => (sample_candidate sep cols r).length ≤ 255) = true →
       validate_filename_parts df cols sep = (true, [])) := by
  constructor
  · intro h
    unfold validate_filename_parts
    by_cases hs : substrB sep invalid_chars
    · simp [hs]
    · simp only [hs, if_false, Bool.false_eq_true]
      exact validateLoop_fail sep cols (df.take 5) h
  · intro hs h
    unfold validate_filename_parts
    simp only [hs, if_false, Bool.false_eq_true]
    exact validateLoop_ok sep cols (df.take 5) h

/-- C7 witness: a sampled candidate of exactly 256 characters (252-char
value plus `.png`) is rejected; one of exactly 255 characters is
accepted. -/
theorem c7_length_check_witness :
    (validate_filename_parts c7df256 ["v"] (s2c "_")).1 = false ∧
    validate_filename_parts c7df255 ["v"] (s2c "_") = (true, []) :=
  ⟨(c7_length_check c7df256 ["v"] (s2c "_")).1 (by decide),
   (c7_length_check c7df255 ["v"] (s2c "_")).2 (by decide) (by decide)⟩

/-- C9 counterexample: a CSV whose parsed RowSet is empty is still
returned as the `Sheet1` entry, so the loader's output can contain an
entry with an empty RowSet, contradicting the claim. -/
theorem c9_empty_csv_cex :
    read_file (s2c "data.csv") [] [] = some [(s2c "Sheet1", ([] : List Row))] ∧
    (([] : List Row)).isEmpty = true := by
  refine ⟨by decide, rfl⟩

/-- C9 amended: for spreadsheet extensions every returned sheet has a
non-empty RowSet, but for a CSV the single `Sheet1` entry is returned
unconditionally, even when its RowSet is empty. -/
theorem c9_empty_sheet_amended (name : Chars) (excelSheets : List (Chars × List Row))
    (csvRows : List Row) (res : List (Chars × List Row))
    (h : read_file name excelSheets csvRows = some res) :
    ((extOf name = s2c "xls" ∨ extOf name = s2c "xlsx" ∨ extOf name = s2c "xlsm") →
       ∀ p ∈ res, p.2 ≠ []) ∧
    (extOf name = s2c "csv" → res = [(s2c "Sheet1", csvRows)]) := by
  unfold read_file at h
  by_cases hx : extOf name = s2c "xls" ∨ extOf name = s2c "xlsx" ∨ extOf name = s2c "xlsm"
  · rw [if_pos hx] at h
    have hres : res = excelSheets.filter (fun p => !p.2.isEmpty) :=
      (Option.some_inj.mp h).symm
    constructor
    · intro _ p hp
      rw [hres] at hp
      have := List.of_mem_filter hp
      simpa [List.isEmpty_iff] using this
    · intro hcsv
      exfalso
      rcases hx with h1 | h1 | h1 <;> rw [hcsv] at h1 <;> exact absurd h1 (by decide)
  · rw [if_neg hx] at h
    by_cases hc : extOf name = s2c "csv"
    · rw [if_pos hc] at h
      refine ⟨fun hex => absurd hex hx, fun _ => (Option.some_inj.mp h).symm⟩
    · rw [if_neg hc] at h
      cases h

/-- C9 witness: a workbook with one non-empty and one empty sheet keeps
only the non-empty one; a CSV maps to its single `Sheet1` entry. -/
theorem c9_empty_sheet_amended_witness :
    ((s2c "S", [rowAcmeA]).2 ≠ []) ∧
    ([(s2c "Sheet1", ([] : List Row))] = [(s2c "Sheet1", ([] : List Row))]) :=
  ⟨(c9_empty_sheet_amended (s2c "book.xlsx") c9sheets [] [(s2c "S", [rowAcmeA])]
      (by decide)).1 (by decide) (s2c "S", [rowAcmeA]) (by decide),
   (c9_empty_sheet_amended (s2c "data.csv") [] [] [(s2c "Sheet1", [])]
      (by decide)).2 (by decide)⟩

theorem filterMap_attempt {render : Chars → Option Bytes} {u fc : String} :
    ∀ {df : List Row} {rows : List (Row × Cell)},
      mapMO (urlTagged u) df = some rows →
      df.filterMap (rowAttempt render u fc) =
        (rows.filter surviveB).filterMap (genRowStep render fc) := by
  intro df
  induction df with
  | nil => intro rows h; cases h; rfl
  | cons r t ih =>
    intro rows h
    obtain ⟨b, bs, hfa, hm, rfl⟩ := mapMO_cons_some h
    cases hg : getCell r u with
    | none => simp [urlTagged, hg] at hfa
    | some c =>
      simp only [urlTagged, hg, Option.map_some'] at hfa
      obtain rfl : b = (r, c) := (Option.some_inj.mp hfa).symm
      by_cases hs : surviveB (r, c)
      · have hr : rowAttempt render u fc r = genRowStep render fc (r, c) := by
          simp [rowAttempt, hg, hs]
        simp only [List.filterMap_cons, hr, List.filter_cons, hs, if_true, ih hm]
      · have hr : rowAttempt render u fc r = none := by
          simp [rowAttempt, hg, hs]
        simp [List.filterMap_cons, hr, List.filter_cons, hs, ih hm]

theorem mapMO_urlTagged_mem {u : String} :
    ∀ {df : List Row} {rows : List (Row × Cell)},
      mapMO (urlTagged u) df = some rows → ∀ p ∈ rows, p.1 ∈ df := by
  intro df
  induction df with
  | nil =>
    intro rows h p hp
    cases h
    cases hp
  | cons r t ih =>
    intro rows h p hp
    obtain ⟨b, bs, hfa, hm, rfl⟩ := mapMO_cons_some h
    cases hg : getCell r u with
    | none => simp [urlTagged, hg] at hfa
    | some c =>
      simp only [urlTagged, hg, Option.map_some'] at hfa
      obtain rfl : b = (r, c) := (Option.some_inj.mp hfa).symm
      rw [List.mem_cons] at hp
      cases hp with
      | inl hpe => rw [hpe]; exact List.mem_cons_self r t
      | inr hpm => exact List.mem_cons_of_mem r (ih hm p hpm)

/-- C1: when the URL and filename columns are present, `generate_qr_codes`
returns normally, its output is exactly the in-order concatenation of the
independent per-row attempts (each row's failure — skip, filter or render
exception — only drops that row), and its length is at most the input
length. -/
theorem c1_per_row_isolation (render : Chars → Option Bytes) (df : List Row)
    (u fc : String)
    (h : ∀ r ∈ df, (getCell r u).isSome ∧ (getCell r fc).isSome) :
    generate_qr_codes render df u fc =
      some (df.filterMap (rowAttempt render u fc)) ∧
    (df.filterMap (rowAttempt render u fc)).length ≤ df.length := by
  have hsome : ∀ r ∈ df, (urlTagged u r).isSome := by
    intro r hr
    have hu := (h r hr).1
    cases hg : getCell r u with
    | none => rw [hg] at hu; cases hu
    | some c => simp [urlTagged, hg]
  obtain ⟨rows, hrows⟩ := mapMO_isSome_of_forall hsome
  have hfc : ∀ p ∈ rows, ((fun p => getCell p.1 fc) p).isSome := by
    intro p hp
    exact (h p.1 (mapMO_urlTagged_mem hrows p hp)).2
  obtain ⟨cells, hcells⟩ := mapMO_isSome_of_forall hfc
  constructor
  · unfold generate_qr_codes
    rw [hrows, Option.some_bind, hcells, Option.map_some', filterMap_attempt hrows]
  · rw [filterMap_attempt hrows]
    calc ((rows.filter surviveB).filterMap (genRowStep render fc)).length
        ≤ (rows.filter surviveB).length := List.length_filterMap_le _ _
      _ ≤ rows.length := List.length_filter_le _ _
      _ = df.length := mapMO_some_length hrows

/-- C1 witness: a two-row set (one renderable row, one NaN URL), both
columns present. -/
theorem c1_per_row_isolation_witness :
    generate_qr_codes c1render c1df "link" "generated_filename" =
      some (c1df.filterMap (rowAttempt c1render "link" "generated_filename")) ∧
    (c1df.filterMap (rowAttempt c1render "link" "generated_filename")).length ≤
      c1df.length :=
  c1_per_row_isolation c1render c1df "link" "generated_filename" (by decide)

theorem lookupSeen_append_of_none {seen : List (Chars × Nat)} {g : Chars}
    (h : lookupSeen seen g = none) (f : Chars) (k : Nat) :
    lookupSeen (seen ++ [(f, k)]) g = if f = g then some k else none := by
  induction seen with
  | nil => rfl
  | cons a rest ih =>
    obtain ⟨a1, a2⟩ := a
    by_cases ha : a1 = g
    · simp [lookupSeen, ha] at h
    · have h' : lookupSeen rest g = none := by
        simpa [lookupSeen, ha] using h
      rw [List.cons_append]
      simpa [lookupSeen, ha] using ih h'

theorem lookupSeen_append_of_some {seen : List (Chars × Nat)} {g : Chars} {n : Nat}
    (h : lookupSeen seen g = some n) (f : Chars) (k : Nat) :
    lookupSeen (seen ++ [(f, k)]) g = some n := by
  induction seen with
  | nil => cases h
  | cons a rest ih =>
    obtain ⟨a1, a2⟩ := a
    by_cases ha : a1 = g
    · have h' : a2 = n := by simpa [lookupSeen, ha] using h
      rw [List.cons_append]
      simp [lookupSeen, ha, h']
    · have h' : lookupSeen rest g = some n := by
        simpa [lookupSeen, ha] using h
      rw [List.cons_append]
      simpa [lookupSeen, ha] using ih h'

theorem bump_lookup_eq (seen : List (Chars × Nat)) (f : Chars) :
    lookupSeen (bumpSeen seen f) f = (lookupSeen seen f).map (fun n => n + 1) := by
  induction seen with
  | nil => rfl
  | cons a rest ih =>
    obtain ⟨a1, a2⟩ := a
    by_cases ha : a1 = f
    · simp [bumpSeen, lookupSeen, ha]
    · simp [bumpSeen, lookupSeen, ha, ih]

theorem bump_lookup_ne (seen : List (Chars × Nat)) (f g : Chars) (hg : g ≠ f) :
    lookupSeen (bumpSeen seen f) g = lookupSeen seen g := by
  induction seen with
  | nil => rfl
  | cons a rest ih =>
    obtain ⟨a1, a2⟩ := a
    have hfg : ¬ f = g := fun hh => hg hh.symm
    by_cases ha : a1 = f
    · simp [bumpSeen, lookupSeen, ha, hfg]
    · by_cases hag : a1 = g
      · simp [bumpSeen, lookupSeen, ha, hag, hg]
      · simp [bumpSeen, lookupSeen, ha, hag, ih]

theorem count_append_single_eq (prev : List Chars) (f : Chars) :
    (prev ++ [f]).count f = prev.count f + 1 := by
  simp [List.count_append]

theorem count_append_single_ne (prev : List Chars) (f g : Chars) (hg : g ≠ f) :
    (prev ++ [f]).count g = prev.count g := by
  simp [List.count_append, List.count_singleton', hg]

theorem inv_insert {seen : List (Chars × Nat)} {prev : List Chars} {f : Chars}
    (hinv : ∀ g, lookupSeen seen g =
      if prev.count g = 0 then none else some (prev.count g))
    (h0 : prev.count f = 0) :
    ∀ g, lookupSeen (seen ++ [(f, 1)]) g =
      if (prev ++ [f]).count g = 0 then none else some ((prev ++ [f]).count g) := by
  intro g
  by_cases hg : g = f
  · subst hg
    have hnone : lookupSeen seen g = none := by rw [hinv g, if_pos h0]
    rw [lookupSeen_append_of_none hnone g 1, if_pos rfl,
      count_append_single_eq, h0]
    rfl
  · have hcount : (prev ++ [f]).count g = prev.count g :=
      count_append_single_ne prev f g hg
    cases hl : lookupSeen seen g with
    | none =>
      have hfg : ¬ f = g := fun hh => hg hh.symm
      rw [lookupSeen_append_of_none hl f 1, if_neg hfg, hcount]
      rw [hinv g] at hl
      by_cases hz : prev.count g = 0
      · rw [if_pos hz]
      · rw [if_neg hz] at hl; cases hl
    | some n =>
      rw [lookupSeen_append_of_some hl f 1, hcount]
      rw [hinv g] at hl
      by_cases hz : prev.count g = 0
      · rw [if_pos hz] at hl; cases hl
      · rw [if_neg hz] at hl
        rw [if_neg hz]
        exact hl.symm ▸ rfl

theorem inv_bump {seen : List (Chars × Nat)} {prev : List Chars} {f : Chars} {n : Nat}
    (hinv : ∀ g, lookupSeen seen g =
      if prev.count g = 0 then none else some (prev.count g))
    (hn : lookupSeen seen f = some n) :
    ∀ g, lookupSeen (bumpSeen seen f) g =
      if (prev ++ [f]).count g = 0 then none else some ((prev ++ [f]).count g) := by
  have hcf : prev.count f = n := by
    have := hinv f
    rw [hn] at this
    by_cases hz : prev.count f = 0
    · rw [if_pos hz] at this; cases this
    · rw [if_neg hz] at this
      exact (Option.some_inj.mp this.symm)
  intro g
  by_cases hg : g = f
  · subst hg
    rw [bump_lookup_eq, hn, count_append_single_eq, hcf]
    simp
  · rw [bump_lookup_ne seen f g hg, count_append_single_ne prev f g hg]
    exact hinv g

theorem zipLoop_spec :
    ∀ (qs : List (Chars × Bytes)) (seen : List (Chars × Nat))
      (acc : List (Chars × Bytes)) (prev : List Chars),
      (∀ g, lookupSeen seen g =
        if prev.count g = 0 then none else some (prev.count g)) →
      (zipLoop (seen, acc) qs).map (fun st => st.2) =
        (zipSpecGo prev qs).map (fun l => acc ++ l) := by
  intro qs
  induction qs with
  | nil => intro seen acc prev _; simp [zipLoop, zipSpecGo]
  | cons q rest ih =>
    intro seen acc prev hinv
    obtain ⟨f, bs⟩ := q
    by_cases hp : hasProblematicPattern f
    · have hleft : zipLoop (seen, acc) ((f, bs) :: rest) = zipLoop (seen, acc) rest := by
        simp [zipLoop, zipStep, hp]
      have hright : zipSpecGo prev ((f, bs) :: rest) = zipSpecGo prev rest := by
        simp [zipSpecGo, hp]
      rw [hleft, hright]
      exact ih seen acc prev hinv
    · by_cases hnn : hasNan f
      · have hleft : zipLoop (seen, acc) ((f, bs) :: rest) = zipLoop (seen, acc) rest := by
          simp [zipLoop, zipStep, hp, hnn]
        have hright : zipSpecGo prev ((f, bs) :: rest) = zipSpecGo prev rest := by
          simp [zipSpecGo, hp, hnn]
        rw [hleft, hright]
        exact ih seen acc prev hinv
      · cases hl : lookupSeen seen f with
        | none =>
          have h0 : prev.count f = 0 := by
            have hx := hinv f
            rw [hl] at hx
            by_cases hz : prev.count f = 0
            · exact hz
            · rw [if_neg hz] at hx; cases hx
          have step : zipStep (seen, acc) (f, bs) =
              some (seen ++ [(f, 1)], acc ++ [(f, bs)]) := by
            simp [zipStep, hp, hnn, hl]
          have hleft : zipLoop (seen, acc) ((f, bs) :: rest) =
              zipLoop (seen ++ [(f, 1)], acc ++ [(f, bs)]) rest := by
            simp [zipLoop, step]
          have hright : zipSpecGo prev ((f, bs) :: rest) =
              (zipSpecGo (prev ++ [f]) rest).map (fun l => (f, bs) :: l) := by
            simp [zipSpecGo, hp, hnn, h0]
          rw [hleft, hright,
            ih (seen ++ [(f, 1)]) (acc ++ [(f, bs)]) (prev ++ [f]) (inv_insert hinv h0)]
          cases zipSpecGo (prev ++ [f]) rest <;> simp
        | some n =>
          have hcnz : ¬ prev.count f = 0 := by
            intro hz
            have hx := hinv f
            rw [hl, if_pos hz] at hx
            cases hx
          have hcf : prev.count f = n := by
            have hx := hinv f
            rw [hl, if_neg hcnz] at hx
            exact Option.some_inj.mp hx.symm
          cases hr : rsplit1 f with
          | none =>
            have step : zipStep (seen, acc) (f, bs) = none := by
              simp [zipStep, hp, hnn, hl, hr]
            have hleft : zipLoop (seen, acc) ((f, bs) :: rest) = none := by
              simp [zipLoop, step]
            have hright : zipSpecGo prev ((f, bs) :: rest) = none := by
              simp [zipSpecGo, hp, hnn, hcnz, hr]
            rw [hleft, hright]
            rfl
          | some be =>
            obtain ⟨b, e⟩ := be
            have step : zipStep (seen, acc) (f, bs) =
                some (bumpSeen seen f, acc ++ [(renameName b (n + 1) e, bs)]) := by
              simp [zipStep, hp, hnn, hl, hr]
            have hleft : zipLoop (seen, acc) ((f, bs) :: rest) =
                zipLoop (bumpSeen seen f, acc ++ [(renameName b (n + 1) e, bs)]) rest := by
              simp [zipLoop, step]
            have hright : zipSpecGo prev ((f, bs) :: rest) =
                (zipSpecGo (prev ++ [f]) rest).map
                  (fun l => (renameName b (prev.count f + 1) e, bs) :: l) := by
              simp [zipSpecGo, hp, hnn, hcnz, hr]
            rw [hleft, hright, hcf,
              ih (bumpSeen seen f) (acc ++ [(renameName b (n + 1) e, bs)])
                (prev ++ [f]) (inv_bump hinv hl)]
            cases zipSpecGo (prev ++ [f]) rest <;> simp

/-- C5 amended: `create_zip_file` renames the `k`-th kept occurrence of an
already-seen filename to `base_k.ext` (occurrence counter before the
extension), exactly as the count-based description `zipSpec` states; but
stored names are not collision-free for every input — a renamed entry can
coincide with an entry whose original name already had the suffixed form
(see the counterexample). -/
theorem c5_zip_rename_amended (qs : List (Chars × Bytes)) :
    create_zip_file qs = zipSpec qs := by
  unfold create_zip_file zipSpec
  have h := zipLoop_spec qs [] [] [] (by intro g; rfl)
  rw [h]
  cases zipSpecGo [] qs <;> simp

/-- C5 counterexample: the input `[a.png, a_2.png, a.png]` stores the name
`a_2.png` twice — the claimed impossibility of collisions after renaming
fails. -/
theorem c5_zip_collision_cex :
    (create_zip_file [(s2c "a.png", [1]), (s2c "a_2.png", [2]), (s2c "a.png", [3])]).map
        (fun l => l.map (fun p => p.1)) =
      some [s2c "a.png", s2c "a_2.png", s2c "a_2.png"] ∧
    ¬ ([s2c "a.png", s2c "a_2.png", s2c "a_2.png"] : List Chars).Nodup := by
  refine ⟨by decide, by decide⟩

theorem pfxB_iff : ∀ (l₁ l₂ : Chars), l₁.isPrefixOf l₂ = true ↔ l₁ <+: l₂ := by
  intro l₁
  induction l₁ with
  | nil =>
    intro l₂
    constructor
    · intro _; exact ⟨l₂, rfl⟩
    · intro _
      cases l₂ <;> rfl
  | cons a as ih =>
    intro l₂
    cases l₂ with
    | nil =>
      constructor
      · intro h; cases h
      · rintro ⟨t, ht⟩; cases ht
    | cons b bs =>
      simp only [List.isPrefixOf, Bool.and_eq_true, beq_iff_eq]
      constructor
      · rintro ⟨rfl, h⟩
        obtain ⟨t, ht⟩ := (ih bs).mp h
        exact ⟨t, by rw [List.cons_append, ht]⟩
      · rintro ⟨t, ht⟩
        rw [List.cons_append] at ht
        injection ht with h1 h2
        exact ⟨h1, (ih bs).mpr ⟨t, h2⟩⟩

theorem substrB_iff (pat : Chars) : ∀ hay : Chars, substrB pat hay = true ↔ pat <:+: hay := by
  intro hay
  induction hay with
  | nil =>
    constructor
    · intro h
      have hp : pat = [] := by
        simpa [substrB, List.isEmpty_iff] using h
      subst hp
      exact ⟨[], [], rfl⟩
    · rintro ⟨s, r, hsr⟩
      have hp : pat = [] := by
        cases s with
        | nil =>
          cases pat with
          | nil => rfl
          | cons c t => cases hsr
        | cons x s' => cases hsr
      simp [substrB, hp]
  | cons c rest ih =>
    constructor
    · intro h
      rw [substrB, Bool.or_eq_true] at h
      cases h with
      | inl h1 =>
        obtain ⟨r, hr⟩ := (pfxB_iff pat (c :: rest)).mp h1
        exact ⟨[], r, by simpa using hr⟩
      | inr h2 =>
        obtain ⟨s, r, hsr⟩ := ih.mp h2
        exact ⟨c :: s, r, by simp [← hsr, List.cons_append]⟩
    · rintro ⟨s, r, hsr⟩
      rw [substrB, Bool.or_eq_true]
      cases s with
      | nil =>
        left
        rw [pfxB_iff]
        exact ⟨r, by simpa using hsr⟩
      | cons x s' =>
        right
        apply ih.mpr
        simp only [List.cons_append] at hsr
        injection hsr with h1 h2
        exact ⟨s', r, h2⟩

theorem substrB_false_iff (pat hay : Chars) :
    substrB pat hay = false ↔ ¬ pat <:+: hay := by
  rw [← substrB_iff]
  cases substrB pat hay <;> simp

theorem pfx_append_excl {d : Char} {Y : Chars} :
    ∀ (X t : Chars), t <+: X ++ d :: Y → d ∉ t → t <+: X := by
  intro X
  induction X with
  | nil =>
    intro t h hd
    cases t with
    | nil => exact ⟨[], rfl⟩
    | cons c t' =>
      obtain ⟨r, hr⟩ := h
      rw [List.nil_append, List.cons_append] at hr
      injection hr with h1 _
      exact absurd (by rw [← h1]; exact List.mem_cons_self c t') hd
  | cons x X' ih =>
    intro t h hd
    cases t with
    | nil => exact ⟨x :: X', rfl⟩
    | cons c t' =>
      obtain ⟨r, hr⟩ := h
      simp only [List.cons_append] at hr
      injection hr with h1 h2
      subst h1
      obtain ⟨r', hr'⟩ :=
        ih t' ⟨r, h2⟩ (fun hm => hd (List.mem_cons_of_mem _ hm))
      exact ⟨r', by rw [List.cons_append, hr']⟩

theorem inf_append_excl {d : Char} {Y : Chars} :
    ∀ (X t : Chars), t <:+: X ++ d :: Y → d ∉ t → t <:+: X ∨ t <:+: Y := by
  intro X
  induction X with
  | nil =>
    intro t h hd
    obtain ⟨s, r, hsr⟩ := h
    cases s with
    | nil =>
      cases t with
      | nil => exact Or.inl ⟨[], [], rfl⟩
      | cons c t' =>
        simp only [List.nil_append, List.cons_append] at hsr
        injection hsr with h1 _
        exact absurd (by rw [← h1]; exact List.mem_cons_self c t') hd
    | cons x s' =>
      simp only [List.nil_append, List.cons_append] at hsr
      injection hsr with _ h2
      exact Or.inr ⟨s', r, h2⟩
  | cons x X' ih =>
    intro t h hd
    obtain ⟨s, r, hsr⟩ := h
    cases s with
    | nil =>
      have hp : t <+: (x :: X') ++ d :: Y := ⟨r, by simpa using hsr⟩
      obtain ⟨r', hr'⟩ := pfx_append_excl (x :: X') t hp hd
      exact Or.inl ⟨[], r', by simpa using hr'⟩
    | cons z s' =>
      simp only [List.cons_append] at hsr
      injection hsr with _ h2
      cases ih t ⟨s', r, h2⟩ hd with
      | inl hX =>
        obtain ⟨s2, r2, h3⟩ := hX
        exact Or.inl ⟨x :: s2, r2, by rw [← h3]; simp [List.cons_append]⟩
      | inr hY => exact Or.inr hY

theorem pfx_append_disjoint {Y : Chars} :
    ∀ (X t : Chars), t <+: X ++ Y → (∀ c ∈ Y, c ∉ t) → t <+: X := by
  intro X
  induction X with
  | nil =>
    intro t h hd
    cases t with
    | nil => exact ⟨[], rfl⟩
    | cons c t' =>
      obtain ⟨r, hr⟩ := h
      have hcY : c ∈ Y := by
        rw [List.nil_append] at hr
        rw [← hr]
        simp
      exact absurd (List.mem_cons_self c t') (hd c hcY)
  | cons x X' ih =>
    intro t h hd
    cases t with
    | nil => exact ⟨x :: X', rfl⟩
    | cons c t' =>
      obtain ⟨r, hr⟩ := h
      simp only [List.cons_append] at hr
      injection hr with h1 h2
      subst h1
      obtain ⟨r', hr'⟩ :=
        ih t' ⟨r, h2⟩ (fun ch hm hmt => hd ch hm (List.mem_cons_of_mem _ hmt))
      exact ⟨r', by rw [List.cons_append, hr']⟩

theorem inf_append_disjoint {Y : Chars} :
    ∀ (X t : Chars), t <:+: X ++ Y → (∀ c ∈ Y, c ∉ t) → t <:+: X := by
  intro X
  induction X with
  | nil =>
    intro t h hd
    cases t with
    | nil => exact ⟨[], [], rfl⟩
    | cons c t' =>
      obtain ⟨s, r, hsr⟩ := h
      have hcY : c ∈ Y := by
        rw [List.nil_append] at hsr
        rw [← hsr]
        simp
      exact absurd (List.mem_cons_self c t') (hd c hcY)
  | cons x X' ih =>
    intro t h hd
    obtain ⟨s, r, hsr⟩ := h
    cases s with
    | nil =>
      have hp : t <+: (x :: X') ++ Y := ⟨r, by simpa using hsr⟩
      obtain ⟨r', hr'⟩ := pfx_append_disjoint (x :: X') t hp hd
      exact ⟨[], r', by simpa using hr'⟩
    | cons z s' =>
      simp only [List.cons_append] at hsr
      injection hsr with _ h2
      obtain ⟨s2, r2, h3⟩ := ih t ⟨s', r, h2⟩ hd
      exact ⟨x :: s2, r2, by rw [← h3]; simp [List.cons_append]⟩

theorem inf_append_singleton {d : Char} :
    ∀ (X t : Chars), t <:+: X ++ [d] → t <:+: X ∨ t.getLast? = some d := by
  intro X t h
  obtain ⟨s, r, hsr⟩ := h
  rcases List.eq_nil_or_concat r with rfl | ⟨r', d', rfl⟩
  · rw [List.append_nil] at hsr
    rcases List.eq_nil_or_concat t with rfl | ⟨t', tl, rfl⟩
    · exact Or.inl ⟨[], X, by simp⟩
    · rw [List.concat_eq_append] at hsr ⊢
      rw [← List.append_assoc] at hsr
      obtain ⟨_, h2⟩ := List.append_inj' hsr rfl
      right
      rw [List.getLast?_concat]
      rw [List.cons.injEq] at h2
      exact congrArg some h2.1
  · rw [List.concat_eq_append] at hsr
    rw [← List.append_assoc] at hsr
    obtain ⟨h1, _⟩ := List.append_inj' hsr rfl
    exact Or.inl ⟨s, r', h1⟩

theorem natCharsFuel_digits :
    ∀ (fuel n : Nat) (c : Char), c ∈ natCharsFuel fuel n →
      ∃ d, d < 10 ∧ c = digitChar d := by
  intro fuel
  induction fuel with
  | zero => intro n c h; cases h
  | succ fuel ih =>
    intro n c h
    simp only [natCharsFuel] at h
    by_cases hn : n < 10
    · rw [if_pos hn] at h
      have hc : c = digitChar n := by simpa using h
      exact ⟨n, hn, hc⟩
    · rw [if_neg hn] at h
      rw [List.mem_append] at h
      cases h with
      | inl h1 => exact ih _ c h1
      | inr h2 =>
        have hc : c = digitChar (n % 10) := by simpa using h2
        exact ⟨n % 10, Nat.mod_lt n (by omega), hc⟩

theorem token_props :
    ∀ t ∈ cleanTokens,
      t ≠ [] ∧ ('.' ∉ t) ∧ (∀ d, d < 10 → digitChar d ∉ t) ∧
        t.getLast? ≠ some '_' := by
  decide

theorem digit_fixed : ∀ d, d < 10 → Char.toLower (digitChar d) = digitChar d := by
  decide

theorem token_not_infix_rename {t b e : Chars} {k : Nat}
    (_h1 : t ≠ []) (h2 : '.' ∉ t) (h3 : ∀ d, d < 10 → digitChar d ∉ t)
    (h4 : t.getLast? ≠ some '_')
    (h : ¬ t <:+: toLowerL (b ++ '.' :: e)) :
    ¬ t <:+: toLowerL (b ++ '_' :: natChars k ++ '.' :: e) := by
  intro hin
  have hdot : Char.toLower '.' = '.' := by decide
  have hund : Char.toLower '_' = '_' := by decide
  have hK : (natChars k).map Char.toLower = natChars k := by
    have hall : ∀ c ∈ natChars k, Char.toLower c = c := by
      intro c hc
      obtain ⟨d, hd, rfl⟩ := natCharsFuel_digits _ _ c hc
      exact digit_fixed d hd
    calc (natChars k).map Char.toLower = (natChars k).map id :=
          List.map_congr_left hall
      _ = natChars k := List.map_id _
  have hnorm : toLowerL (b ++ '_' :: natChars k ++ '.' :: e) =
      toLowerL b ++ '_' :: natChars k ++ '.' :: toLowerL e := by
    simp [toLowerL, hK, hdot, hund]
  have hnorm0 : toLowerL (b ++ '.' :: e) = toLowerL b ++ '.' :: toLowerL e := by
    simp [toLowerL, hdot]
  rw [hnorm] at hin
  rw [hnorm0] at h
  have hre : toLowerL b ++ '_' :: natChars k ++ '.' :: toLowerL e =
      (toLowerL b ++ '_' :: natChars k) ++ '.' :: toLowerL e := by
    simp [List.append_assoc, List.cons_append]
  rw [hre] at hin
  cases inf_append_excl (toLowerL b ++ '_' :: natChars k) t hin h2 with
  | inr hY =>
    apply h
    obtain ⟨s, r, hsr⟩ := hY
    exact ⟨toLowerL b ++ '.' :: s, r, by rw [← hsr]; simp [List.append_assoc]⟩
  | inl hX =>
    have hre2 : toLowerL b ++ '_' :: natChars k =
        (toLowerL b ++ ['_']) ++ natChars k := by
      simp [List.append_assoc]
    rw [hre2] at hX
    have hdisj : ∀ c ∈ natChars k, c ∉ t := by
      intro c hc
      obtain ⟨d, hd, rfl⟩ := natCharsFuel_digits _ _ c hc
      exact h3 d hd
    have hX2 := inf_append_disjoint (toLowerL b ++ ['_']) t hX hdisj
    cases inf_append_singleton (toLowerL b) t hX2 with
    | inr hlast => exact h4 hlast
    | inl hL =>
      apply h
      obtain ⟨s, r, hsr⟩ := hL
      exact ⟨s, r ++ '.' :: toLowerL e, by rw [← hsr]; simp [List.append_assoc]⟩

theorem rsplit1_eq : ∀ {f b e : Chars}, rsplit1 f = some (b, e) → f = b ++ '.' :: e := by
  intro f
  induction f with
  | nil => intro b e h; cases h
  | cons c rest ih =>
    intro b e h
    simp only [rsplit1] at h
    cases hr : rsplit1 rest with
    | some be =>
      obtain ⟨b', e'⟩ := be
      rw [hr] at h
      have hb : c :: b' = b ∧ e' = e := by
        constructor
        · exact congrArg Prod.fst (Option.some_inj.mp h)
        · exact congrArg Prod.snd (Option.some_inj.mp h)
      obtain ⟨hb1, hb2⟩ := hb
      have hrest := ih hr
      rw [← hb1, ← hb2, hrest, List.cons_append]
    | none =>
      rw [hr] at h
      by_cases hc : c = '.'
      · rw [if_pos hc] at h
        have hb : ([] : Chars) = b ∧ rest = e := by
          constructor
          · exact congrArg Prod.fst (Option.some_inj.mp h)
          · exact congrArg Prod.snd (Option.some_inj.mp h)
        obtain ⟨hb1, hb2⟩ := hb
        rw [← hb1, ← hb2, List.nil_append, hc]
      · rw [if_neg hc] at h
        cases h

theorem clean_iff (x : Chars) :
    (hasProblematicPattern x = false ∧ hasNan x = false) ↔ cleanName x := by
  unfold hasProblematicPattern hasNan cleanName
  rw [List.any_eq_false]
  constructor
  · rintro ⟨h1, h2⟩ t ht
    simp only [cleanTokens, List.mem_cons, List.not_mem_nil, or_false] at ht
    rcases ht with rfl | rfl | rfl | rfl | rfl
    · exact (substrB_false_iff _ _).mp (by simpa using h1 _ (by simp [problematic_patterns]))
    · exact (substrB_false_iff _ _).mp (by simpa using h1 _ (by simp [problematic_patterns]))
    · exact (substrB_false_iff _ _).mp (by simpa using h1 _ (by simp [problematic_patterns]))
    · exact (substrB_false_iff _ _).mp (by simpa using h1 _ (by simp [problematic_patterns]))
    · exact (substrB_false_iff _ _).mp h2
  · intro hc
    constructor
    · intro p hp
      simp only [problematic_patterns, List.mem_cons, List.not_mem_nil, or_false] at hp
      have hpt : p ∈ cleanTokens := by
        rcases hp with rfl | rfl | rfl | rfl <;> simp [cleanTokens]
      simpa [substrB_false_iff] using (substrB_false_iff p (toLowerL x)).mpr (hc p hpt)
    · exact (substrB_false_iff _ _).mpr (hc (s2c "nan") (by simp [cleanTokens]))

theorem cleanName_rename {f b e : Chars} {k : Nat}
    (hsplit : rsplit1 f = some (b, e)) (hc : cleanName f) :
    cleanName (renameName b k e) := by
  intro t ht
  have hf := rsplit1_eq hsplit
  have hprops := token_props t ht
  have hnot : ¬ t <:+: toLowerL (b ++ '.' :: e) := by
    rw [← hf]
    exact hc t ht
  exact token_not_infix_rename hprops.1 hprops.2.1 hprops.2.2.1 hprops.2.2.2 hnot

theorem zipLoop_clean :
    ∀ (qs : List (Chars × Bytes)) (st : List (Chars × Nat) × List (Chars × Bytes)),
      (∀ p ∈ st.2, cleanName p.1) →
      ∀ st', zipLoop st qs = some st' → ∀ p ∈ st'.2, cleanName p.1 := by
  intro qs
  induction qs with
  | nil =>
    intro st hst st' h
    have : st = st' := Option.some_inj.mp h
    exact this ▸ hst
  | cons q rest ih =>
    intro st hst st' h
    obtain ⟨f, bs⟩ := q
    by_cases hp : hasProblematicPattern f
    · have hskip : zipStep st (f, bs) = some st := by simp [zipStep, hp]
      rw [show zipLoop st ((f, bs) :: rest) = zipLoop st rest from by
        simp [zipLoop, hskip]] at h
      exact ih st hst st' h
    · by_cases hnn : hasNan f
      · have hskip : zipStep st (f, bs) = some st := by simp [zipStep, hp, hnn]
        rw [show zipLoop st ((f, bs) :: rest) = zipLoop st rest from by
          simp [zipLoop, hskip]] at h
        exact ih st hst st' h
      · have hcf : cleanName f := (clean_iff f).mp
          ⟨Bool.not_eq_true _ ▸ (by simpa using hp), Bool.not_eq_true _ ▸ (by simpa using hnn)⟩
        cases hl : lookupSeen st.1 f with
        | none =>
          have hstep : zipStep st (f, bs) = some (st.1 ++ [(f, 1)], st.2 ++ [(f, bs)]) := by
            simp [zipStep, hp, hnn, hl]
          rw [show zipLoop st ((f, bs) :: rest) =
              zipLoop (st.1 ++ [(f, 1)], st.2 ++ [(f, bs)]) rest from by
            simp [zipLoop, hstep]] at h
          apply ih _ ?_ st' h
          intro p hpmem
          rw [List.mem_append] at hpmem
          cases hpmem with
          | inl hm => exact hst p hm
          | inr hm =>
            have : p = (f, bs) := by simpa using hm
            exact this ▸ hcf
        | some n =>
          cases hr : rsplit1 f with
          | none =>
            have hstep : zipStep st (f, bs) = none := by
              simp [zipStep, hp, hnn, hl, hr]
            rw [show zipLoop st ((f, bs) :: rest) = none from by
              simp [zipLoop, hstep]] at h
            cases h
          | some be =>
            obtain ⟨b, e⟩ := be
            have hstep : zipStep st (f, bs) =
                some (bumpSeen st.1 f, st.2 ++ [(renameName b (n + 1) e, bs)]) := by
              simp [zipStep, hp, hnn, hl, hr]
            rw [show zipLoop st ((f, bs) :: rest) =
                zipLoop (bumpSeen st.1 f, st.2 ++ [(renameName b (n + 1) e, bs)]) rest from by
              simp [zipLoop, hstep]] at h
            apply ih _ ?_ st' h
            intro p hpmem
            rw [List.mem_append] at hpmem
            cases hpmem with
            | inl hm => exact hst p hm
            | inr hm =>
              have hpe : p = (renameName b (n + 1) e, bs) := by simpa using hm
              exact hpe ▸ cleanName_rename hr hcf

/-- C8: pattern-filtered output everywhere — every pair produced by the
Batch Orchestrator and every entry stored by the Archive Packager has a
filename free (case-insensitively) of the problematic tokens
`missing_missing`, `nan_nan`, `item_item`, `empty_empty` and of the
substring `nan`; rows and entries carrying such filenames are skipped and
never reach the archive. -/
theorem c8_problematic_filtered (render : Chars → Option Bytes) (df : List Row)
    (u fc : String) (qs : List (Chars × Bytes)) :
    (∀ out, generate_qr_codes render df u fc = some out →
       ∀ p ∈ out, hasProblematicPattern p.1 = false ∧ hasNan p.1 = false) ∧
    (∀ out, create_zip_file qs = some out →
       ∀ p ∈ out, hasProblematicPattern p.1 = false ∧ hasNan p.1 = false) := by
  constructor
  · intro out h p hp
    unfold generate_qr_codes at h
    cases h1 : mapMO (urlTagged u) df with
    | none => rw [h1] at h; cases h
    | some rows =>
      rw [h1, Option.some_bind] at h
      cases h2 : mapMO (fun p => getCell p.1 fc) rows with
      | none => rw [h2] at h; cases h
      | some cells =>
        rw [h2, Option.map_some'] at h
        rw [← Option.some_inj.mp h] at hp
        rw [List.mem_filterMap] at hp
        obtain ⟨x, _, hstep⟩ := hp
        unfold genRowStep at hstep
        cases hg : getCell x.1 fc with
        | none => rw [hg] at hstep; cases hstep
        | some cf =>
          rw [hg] at hstep
          by_cases hpp : hasProblematicPattern (cellToStr cf)
          · simp [hpp] at hstep
          · by_cases hnn : hasNan (cellToStr cf)
            · simp [hpp, hnn] at hstep
            · by_cases hur : (trimL (cellToStr x.2)).isEmpty
              · simp [hpp, hnn, hur] at hstep
              · simp only [hpp, hnn, hur, Bool.false_eq_true, if_false] at hstep
                cases hrender : render (cellToStr x.2) with
                | none => rw [hrender] at hstep; cases hstep
                | some bs =>
                  rw [hrender, Option.map_some'] at hstep
                  have hpe : p = (cellToStr cf, bs) := (Option.some_inj.mp hstep).symm
                  rw [hpe]
                  exact ⟨by simpa using hpp, by simpa using hnn⟩
  · intro out h p hp
    unfold create_zip_file at h
    cases hz : zipLoop ([], []) qs with
    | none => rw [hz] at h; cases h
    | some st' =>
      rw [hz, Option.map_some'] at h
      have hclean := zipLoop_clean qs ([], []) (by intro p hp'; cases hp') st' hz
      rw [← Option.some_inj.mp h] at hp
      exact (clean_iff p.1).mpr (hclean p hp)

/-- C8 witness: a concrete batch whose single row renders, with a clean
filename. -/
theorem c8_problematic_filtered_witness :
    hasProblematicPattern (s2c "ok.png") = false ∧ hasNan (s2c "ok.png") = false :=
  (c8_problematic_filtered c1render
      [[("link", Cell.str (s2c "https://x")),
        ("generated_filename", Cell.str (s2c "ok.png"))]]
      "link" "generated_filename" []).1
    [(s2c "ok.png", [7])] (by decide) (s2c "ok.png", [7]) (by simp)

end QrSpec
